import Mathlib

/-!
Verification of the PDF error-phrase annotator (sources: `Annotation.py`,
`Simple.py`, `pdf_error_annotator.py`, `main.py`).

The embedding models the pure core of the program:
* geometry (`Box`, `is_within`, coordinate conversion and buffering,
  line grouping, union rectangles);
* the phrase-field parser (`parse_error_phrases`, with a model of
  Python's `ast.literal_eval` restricted to flat list literals of quoted
  strings and integers — `ast` is an external library, only its
  success/failure behaviour on the data formats at hand matters);
* the exact-match word-index scan and the partial-alignment pass of
  `Annotation.py` (the full aligner with the `used_indices` set);
* `process_word_matches` / `process_paragraph` of
  `pdf_error_annotator.py` (exact-match only, no used set), with a
  checked (`Option`) semantics in which any out-of-range list access in
  `highlight_matched_words` yields `none`.

Python strings are modelled as `String` / `List Char`; coordinates as `ℚ`;
span identifiers as `Nat` (only equality on them is ever used by the code).
While-loops whose index does not advance structurally take an explicit
fuel argument; callers pass enough fuel for the loop to run to completion.
-/

set_option autoImplicit false

namespace Annotator

/-- A bounding box `[x0, y0, x1, y1]`, as the 4-element lists in the data. -/
structure Box where
  x0 : ℚ
  y0 : ℚ
  x1 : ℚ
  y1 : ℚ
deriving DecidableEq, Repr

/-- A word row of the word-level table after the window filter: content,
bounding box, span id and next-word span id (`Annotation.py` columns
`Content`, `Bounding Box`/`Clipbounds`, `Spans`, `Next Word Span`). -/
structure Word where
  content : String
  bbox : Box
  spans : Nat
  nextWordSpan : Nat
deriving DecidableEq, Repr

/-- A word row before the window filter: the bounding-box cell may be
absent (`None`/unparsable). -/
structure RawWord where
  content : String
  bbox : Option Box
  spans : Nat
  nextWordSpan : Nat
deriving DecidableEq, Repr

/-- A scalar Python value as it occurs in the error-phrase data: a
string, an integer, or any other non-string scalar (NaN, a nested
list, …) — the code only ever asks `isinstance(x, str)` of elements, so
all non-string elements behave alike and are collapsed into `other`. -/
inductive PyScalar where
  | str : String → PyScalar
  | int : Int → PyScalar
  | other : PyScalar
deriving DecidableEq, Repr

/-- A Python value of the error-phrase field: a scalar or a (flat) list
of scalars. -/
inductive PyVal where
  | scalar : PyScalar → PyVal
  | list : List PyScalar → PyVal
deriving DecidableEq, Repr

/-- Shorthand for a string-valued `PyVal`. -/
def PyVal.str (s : String) : PyVal := .scalar (.str s)

/-- Python truthiness of a `PyVal` (`if not error_list:` etc.).
Note `bool(nan)` is `True` in Python. -/
def pyTruthy : PyVal → Bool
  | .scalar (.str s) => !(s = "")
  | .scalar (.int n) => !(n = 0)
  | .scalar .other => true
  | .list xs => !xs.isEmpty

/-- Python iteration over a `PyVal` (`for error in error_list`): a list
yields its elements, a string yields its characters as 1-character
strings, other scalars raise `TypeError` (modelled as `none`). -/
def pyIter : PyVal → Option (List PyScalar)
  | .list xs => some xs
  | .scalar (.str s) => some (s.data.map (fun c => .str (String.mk [c])))
  | _ => none

/-- `is_within` of `pdf_error_annotator.py` (lines 73-90): `False` when
either box is absent, otherwise the four coordinate comparisons. -/
def is_within (bbox container : Option Box) : Bool :=
  match bbox, container with
  | some b, some c =>
      decide (b.x0 ≥ c.x0) && decide (b.x1 ≤ c.x1) &&
      decide (b.y0 ≥ c.y0) && decide (b.y1 ≤ c.y1)
  | _, _ => false

/-- Coordinate flip (Adobe → fitz) followed by buffer expansion, as done
in `process_paragraph` (lines 180-194). -/
def convertBuffer (pb : Box) (pageHeight buffer : ℚ) : Box :=
  ⟨pb.x0 - buffer, (pageHeight - pb.y0) - buffer,
   pb.x1 + buffer, (pageHeight - pb.y1) + buffer⟩

/-- Strip all space characters (`str.replace(" ", "")`). -/
def stripSp (s : List Char) : List Char := s.filter (fun c => !(c = ' '))

/-- `" ".join(contents)` over char lists. -/
def joinChars : List String → List Char
  | [] => []
  | [w] => w.data
  | w :: rest => w.data ++ ' ' :: joinChars rest

/-- Leftmost occurrence scan for `findSub`. -/
def findSubAux (pat : List Char) : List Char → Nat → Option Nat
  | [], i => if pat.isPrefixOf ([] : List Char) then some i else none
  | c :: t, i => if pat.isPrefixOf (c :: t) then some i else findSubAux pat t (i + 1)

/-- Index of the leftmost occurrence of `pat` in `s`
(`str.find` / first element of `re.finditer`). -/
def findSub (s pat : List Char) : Option Nat := findSubAux pat s 0

/-- Stable insertion by top y-coordinate (`phrase_bboxes.sort(key=lambda b: b[1])`;
a stable sort is uniquely determined by the key order, so insertion sort
agrees with Python's sort). -/
def insertByY0 (b : Box) : List Box → List Box
  | [] => [b]
  | c :: rest => if b.y0 ≤ c.y0 then b :: c :: rest else c :: insertByY0 b rest

/-- Sort boxes by their `y0` coordinate, stably. -/
def sortByY0 (l : List Box) : List Box := l.foldr insertByY0 []

/-- One pass of the line grouping: start a new group when the current
box's `y0` differs from the previous box's `y0` by more than `tol`. -/
def lineGroupsGo (tol : ℚ) (prev : Box) (cur : List Box) : List Box → List (List Box)
  | [] => [cur]
  | b :: rest =>
      if |b.y0 - prev.y0| ≤ tol then lineGroupsGo tol b (cur ++ [b]) rest
      else cur :: lineGroupsGo tol b [b] rest

/-- Group sorted boxes into visual lines (`line_groups` loops). -/
def lineGroups (tol : ℚ) : List Box → List (List Box)
  | [] => []
  | b :: rest => lineGroupsGo tol b [b] rest

/-- Componentwise union rectangle of a group
(`min b[0]`, `min b[1]`, `max b[2]`, `max b[3]`). -/
def unionRect : List Box → Box
  | [] => ⟨0, 0, 0, 0⟩
  | b :: rest =>
      rest.foldl (fun a c => ⟨min a.x0 c.x0, min a.y0 c.y0, max a.x1 c.x1, max a.y1 c.y1⟩) b

/-- Sort, group into lines, and take one union rectangle per line — the
shared highlight-geometry computation of all three scripts. -/
def lineRects (tol : ℚ) (boxes : List Box) : List Box :=
  (lineGroups tol (sortByY0 boxes)).map unionRect

/-! ### Model of `ast.literal_eval` (external library)

Restricted to the shapes the data uses: a quoted string (no escapes), an
integer, or a flat list literal of such scalars whose elements contain no
commas. On anything else it fails (`none`), as `literal_eval` raises. -/

/-- Leading/trailing whitespace strip over chars. -/
def pyStripWs (s : List Char) : List Char :=
  ((s.dropWhile Char.isWhitespace).reverse.dropWhile Char.isWhitespace).reverse

/-- Parse one scalar literal: a quoted string or an integer. -/
def parseScalar (s : List Char) : Option PyScalar :=
  let t := pyStripWs s
  if 2 ≤ t.length ∧ (t.head? = some '\'' ∧ t.getLast? = some '\'' ∨
                     t.head? = some '"' ∧ t.getLast? = some '"') then
    some (.str (String.mk ((t.drop 1).dropLast)))
  else if !t.isEmpty ∧ t.all Char.isDigit then
    (String.mk t).toNat?.map (fun n => .int n)
  else
    none

/-- Split on commas (flat: elements may not contain commas). -/
def splitCommas : List Char → List (List Char)
  | [] => [[]]
  | c :: rest =>
      let r := splitCommas rest
      if c = ',' then [] :: r
      else match r with
           | [] => [[c]]
           | g :: gs => (c :: g) :: gs

/-- Model of `ast.literal_eval` on a string: `none` models a raised
exception (in particular on the empty string and on plain free text). -/
def pyLiteralEval (s : String) : Option PyVal :=
  let t := pyStripWs s.data
  if t.head? = some '[' ∧ t.getLast? = some ']' ∧ 2 ≤ t.length then
    let inner := (t.drop 1).dropLast
    if (pyStripWs inner).isEmpty then some (.list [])
    else ((splitCommas inner).mapM parseScalar).map PyVal.list
  else
    (parseScalar t).map PyVal.scalar

/-- `parse_error_phrases` of `pdf_error_annotator.py` (lines 92-112): a
string is literal-evaluated with a single-element fallback, a list passes
through, anything else yields `[]`. -/
def parse_error_phrases (error_phrases : PyVal) : PyVal :=
  match error_phrases with
  | .scalar (.str s) =>
      match pyLiteralEval s with
      | some v => v
      | none => .list [.str s]
  | .list xs => .list xs
  | _ => .list []

/-! ### `process_word_matches` of `pdf_error_annotator.py` (lines 239-290)

Checked semantics: list accesses in `highlight_matched_words` that would
raise in Python (`phrase_bboxes[0]` on an empty list, `.loc` on a missing
index) are modelled as `none`. -/

/-- Word-index scan of the exact-match branch (lines 268-280): include
every word with `word_start <= match_end` and `word_end >= match_start`. -/
def pwmScanAux (ms me : Nat) : List String → Nat → Nat → List Nat
  | [], _, _ => []
  | w :: rest, idx, cp =>
      (if cp ≤ me ∧ ms ≤ cp + w.length then [idx] else []) ++
      pwmScanAux ms me rest (idx + 1) (cp + w.length + 1)

/-- The scan entered at the first word with character position 0. -/
def pwmScan (contents : List String) (ms me : Nat) : List Nat :=
  pwmScanAux ms me contents 0 0

/-- `matching_rows.loc[indices]`: look up every index, failing (`none`)
if any is out of range. -/
def lookupRows (rows : List Word) : List Nat → Option (List Word)
  | [] => some []
  | i :: t =>
      match rows.get? i with
      | none => none
      | some w => (lookupRows rows t).map (fun ws => w :: ws)

/-- `highlight_matched_words` (lines 292-332), checked: look up each
matched row, sort the boxes by `y0`, group into lines and emit one union
rectangle per line.  `none` models an indexing error (`.loc` on a
missing label, or `phrase_bboxes[0]` on an empty list). -/
def highlight_matched_words (rows : List Word) (indices : List Nat) (tol : ℚ) :
    Option (List Box) :=
  match lookupRows rows indices with
  | none => none
  | some ws =>
      match sortByY0 (ws.map (fun w => w.bbox)) with
      | [] => none
      | b :: rest => some ((lineGroupsGo tol b [b] rest).map unionRect)

/-- Accumulator of the phrase loop in `process_word_matches`. -/
structure PwmAcc where
  annots : List Box
  matchedSets : List (List Nat)
  matchesFound : Bool
deriving DecidableEq, Repr

/-- The phrase loop of `process_word_matches` (lines 255-287). -/
def pwmGo (rows : List Word) (tol : ℚ) : List PyScalar → PwmAcc → Option PwmAcc
  | [], acc => some acc
  | e :: rest, acc =>
      match e with
      | .str s =>
          if s = "" then pwmGo rows tol rest acc
          else
            match findSub (joinChars (rows.map (fun w => w.content))) s.data with
            | some ms =>
                let idxs := pwmScan (rows.map (fun w => w.content)) ms (ms + s.length)
                let acc1 : PwmAcc := ⟨acc.annots, acc.matchedSets, true⟩
                if idxs = [] then pwmGo rows tol rest acc1
                else
                  match highlight_matched_words rows idxs tol with
                  | none => none
                  | some rects =>
                      pwmGo rows tol rest
                        ⟨acc1.annots ++ rects, acc1.matchedSets ++ [idxs], true⟩
            | none => pwmGo rows tol rest acc
      | _ => pwmGo rows tol rest acc

/-- `process_word_matches` (lines 239-290): run the phrase loop, and if no
phrase matched, fall back to highlighting the whole paragraph box. -/
def process_word_matches (rows : List Word) (errorList : List PyScalar)
    (paraBbox : Box) (tol : ℚ) : Option PwmAcc :=
  match pwmGo rows tol errorList ⟨[], [], false⟩ with
  | none => none
  | some acc =>
      if acc.matchesFound then some acc
      else some ⟨acc.annots ++ [paraBbox], acc.matchedSets, false⟩

/-- The window filter of `process_paragraph` (lines 203-210): keep the
page's words whose box lies within the buffered paragraph box. -/
def selectWindow (ws : List RawWord) (container : Box) : List Word :=
  ws.filterMap (fun w =>
    match w.bbox with
    | some b =>
        if is_within (some b) (some container) then
          some ⟨w.content, b, w.spans, w.nextWordSpan⟩
        else none
    | none => none)

/-- Observable outcome of one paragraph: the recorded `Annotation_bbox`
list and the per-phrase matched index sets. -/
structure ParaResult where
  annots : List Box
  matchedSets : List (List Nat)
deriving DecidableEq, Repr

/-- The pure core of `process_paragraph` (lines 151-220), after the page
lookup: convert and buffer the paragraph box, parse the error-phrase
field, filter the word window, and either fall back to the whole
paragraph box (empty window) or run the phrase loop. -/
def process_paragraph_core (pageWords : List RawWord) (paraBbox : Box)
    (pageHeight buffer tol : ℚ) (errorPhrases : PyVal) : Option ParaResult :=
  let converted := convertBuffer paraBbox pageHeight buffer
  let errorList := parse_error_phrases errorPhrases
  if pyTruthy errorList = false then some ⟨[], []⟩
  else
    match pyIter errorList with
    | none => none
    | some errs =>
        let window := selectWindow pageWords converted
        if window.isEmpty then some ⟨[converted], []⟩
        else
          (process_word_matches window errs converted tol).map
            (fun acc => ⟨acc.annots, acc.matchedSets⟩)

/-! ### The full aligner of `Annotation.py` (lines 102-246)

Steps: exact substring match with a word-index scan that excludes already
used indices, then — when that yields nothing — suffix-by-suffix partial
alignment constrained by span adjacency, candidate selection, and an
acceptance check against the `used_indices` set. -/

/-- Config constants of `Annotation.py` (lines 31-32). -/
def BUFFER : ℚ := 5

/-- Tolerance for grouping words into one visual line. -/
def LINE_TOLERANCE : ℚ := 2

/-- `matching_rows.loc[i]` on the window; indices produced by the code
are always in range, out-of-range access yields a dummy row. -/
def rowGet (rows : List Word) (i : Nat) : Word :=
  rows.getD i ⟨"", ⟨0, 0, 0, 0⟩, 0, 0⟩

/-- The word-index scan of the direct-match branch (`Annotation.py`
lines 119-135): a word is taken when its start position lies inside the
match, or when it starts before the match end and ends at or after the
match start; indices already in `used` are excluded, and the loop breaks
once the position has passed the match end. -/
def directScanAux (used : List Nat) (ms me : Nat) : List String → Nat → Nat → List Nat
  | [], _, _ => []
  | w :: rest, idx, cp =>
      let inc :=
        if ((ms ≤ cp ∧ cp < me) ∨ (cp < me ∧ ms ≤ cp + w.length)) ∧ ¬ idx ∈ used then
          [idx]
        else []
      if me < cp + w.length + 1 then inc
      else inc ++ directScanAux used ms me rest (idx + 1) (cp + w.length + 1)

/-- Direct-match word-index selection for match interval `[ms, me)`. -/
def directScan (contents : List String) (used : List Nat) (ms me : Nat) : List Nat :=
  directScanAux used ms me contents 0 0

/-- This definition follows the spec's words for Step 2 ("every word
index whose character span overlaps `[match_start, match_start+len(P))`,
excluding `used`"), reading overlap as non-empty intersection of the
half-open character spans. -/
def specOverlapScanAux (used : List Nat) (ms me : Nat) : List String → Nat → Nat → List Nat
  | [], _, _ => []
  | w :: rest, idx, cp =>
      (if cp < me ∧ ms < cp + w.length ∧ ¬ idx ∈ used then [idx] else []) ++
      specOverlapScanAux used ms me rest (idx + 1) (cp + w.length + 1)

/-- Spec-worded strict-overlap selection, from position 0. -/
def specOverlapScan (contents : List String) (used : List Nat) (ms me : Nat) : List Nat :=
  specOverlapScanAux used ms me contents 0 0

/-- Overlap selection with a closed boundary at the match start: a word
whose span merely touches `ms` (ends exactly there) is also taken.  This
is the boundary rule the code implements. -/
def closedOverlapScanAux (used : List Nat) (ms me : Nat) : List String → Nat → Nat → List Nat
  | [], _, _ => []
  | w :: rest, idx, cp =>
      (if cp < me ∧ ms ≤ cp + w.length ∧ ¬ idx ∈ used then [idx] else []) ++
      closedOverlapScanAux used ms me rest (idx + 1) (cp + w.length + 1)

/-- Closed-boundary overlap selection, from position 0. -/
def closedOverlapScan (contents : List String) (used : List Nat) (ms me : Nat) : List Nat :=
  closedOverlapScanAux used ms me contents 0 0

/-- Python `str.split()`: split on whitespace, dropping empty pieces. -/
def pyTokensAux : List Char → List Char → List (List Char)
  | [], cur => if cur.isEmpty then [] else [cur.reverse]
  | c :: rest, cur =>
      if c.isWhitespace then
        if cur.isEmpty then pyTokensAux rest [] else cur.reverse :: pyTokensAux rest []
      else pyTokensAux rest (c :: cur)

/-- Whitespace tokenization of a phrase. -/
def pyTokens (s : List Char) : List (List Char) := pyTokensAux s []

/-- `" ".join(tokens)`. -/
def joinTokens : List (List Char) → List Char
  | [] => []
  | [t] => t
  | t :: rest => t ++ ' ' :: joinTokens rest

/-- A partial-match candidate (the dicts appended to `all_matches`,
lines 197-204; the `sub_error`/`original_error` fields only feed the
highlight label and are omitted). -/
structure Candidate where
  sequence : List Nat
  text : List Char
  is_full_match : Bool
  length : Nat
deriving DecidableEq, Repr

/-- The run-extension `while` loop (lines 177-191): extend the run at `j`
while the accumulated stripped content is a prefix of the target, the
previous word's next-word span equals the current word's span, and the
extended content is still a prefix.  `fuel` bounds the iterations; the
callers pass enough for the loop to finish. -/
def extendRun (rows : List Word) (cleanError : List Char) :
    Nat → List Nat → List Char → Nat → List Nat × Nat
  | 0, seq, _, j => (seq, j)
  | fuel + 1, seq, built, j =>
      if j < rows.length ∧ built.isPrefixOf cleanError then
        if ¬ (rowGet rows (j - 1)).nextWordSpan = (rowGet rows j).spans then (seq, j)
        else
          if (built ++ stripSp (rowGet rows j).content.data).isPrefixOf cleanError then
            extendRun rows cleanError fuel (seq ++ [j])
              (built ++ stripSp (rowGet rows j).content.data) (j + 1)
          else (seq, j)
      else (seq, j)

/-- The candidate scan over start indices (lines 168-207): skip used
start indices, grow a run, record it as a candidate when its stripped
content is a non-empty prefix of the target (continuing past the run),
otherwise advance by one. -/
def scanCandidates (rows : List Word) (used : List Nat) (cleanError : List Char) :
    Nat → Nat → List Candidate
  | 0, _ => []
  | fuel + 1, i =>
      if i < rows.length then
        if i ∈ used then scanCandidates rows used cleanError fuel (i + 1)
        else
          let built := stripSp (rowGet rows i).content.data
          let sj := extendRun rows cleanError rows.length [i] built (i + 1)
          let matchText := (sj.1.map (fun x => (rowGet rows x).content.data)).flatten
          let matchClean := stripSp matchText
          if matchClean.isPrefixOf cleanError ∧ ¬ matchClean = [] then
            ⟨sj.1, matchText, decide (matchClean = cleanError), matchClean.length⟩ ::
              scanCandidates rows used cleanError fuel sj.2
          else scanCandidates rows used cleanError fuel (i + 1)
      else []

/-- The suffix loop (lines 163-165): try the whole tokenized phrase, then
the phrase minus its first token, and so on. -/
def suffixAttempts (rows : List Word) (used : List Nat) : List (List Char) → List Candidate
  | [] => []
  | t :: rest =>
      scanCandidates rows used (stripSp (joinTokens (t :: rest))) (rows.length + 1) 0 ++
      suffixAttempts rows used rest

/-- All candidates collected across all suffix attempts for one phrase. -/
def allMatches (rows : List Word) (used : List Nat) (error : String) : List Candidate :=
  suffixAttempts rows used (pyTokens error.data)

/-- Candidate selection (lines 209-223): the first full match if any,
otherwise the first candidate of maximum stripped length. -/
def selectMatch (all : List Candidate) : Option Candidate :=
  match all.filter (fun m => m.is_full_match) with
  | f :: _ => some f
  | [] =>
      match all with
      | [] => none
      | _ =>
          let maxLen := (all.map (fun m => m.length)).foldl Nat.max 0
          all.find? (fun m => m.length == maxLen)

/-- Line-grouped highlight rectangles for a run of window words. -/
def phraseRects (rows : List Word) (seq : List Nat) : List Box :=
  lineRects LINE_TOLERANCE (seq.map (fun x => (rowGet rows x).bbox))

/-- Per-phrase outcome of the `Annotation.py` phrase loop: the used set
afterwards, the indices claimed by this phrase, the highlight rectangles
emitted for it, and whether the partial-matching section was entered. -/
structure PhraseResult where
  usedAfter : List Nat
  matched : List Nat
  rects : List Box
  viaStep3 : Bool
deriving DecidableEq, Repr

/-- The partial-matching section for one phrase (lines 161-246): collect
candidates, pick the winner, and accept it only when it shares no index
with `used_indices`. -/
def step3Phase (rows : List Word) (used : List Nat) (error : String) : PhraseResult :=
  match selectMatch (allMatches rows used error) with
  | none => ⟨used, [], [], true⟩
  | some c =>
      if c.sequence.any (fun idx => decide (idx ∈ used)) then ⟨used, [], [], true⟩
      else ⟨used ++ c.sequence, c.sequence, phraseRects rows c.sequence, true⟩

/-- One iteration of the phrase loop (lines 108-246): skip empty phrases,
try the direct match first (claiming its not-yet-used indices and
stopping when any exist), otherwise fall into partial matching. -/
def processPhrase (rows : List Word) (used : List Nat) (error : String) : PhraseResult :=
  if error = "" then ⟨used, [], [], false⟩
  else
    match findSub (joinChars (rows.map (fun w => w.content))) error.data with
    | some ms =>
        let idxs := directScan (rows.map (fun w => w.content)) used ms (ms + error.length)
        if idxs = [] then step3Phase rows used error
        else ⟨used ++ idxs, idxs, phraseRects rows idxs, false⟩
    | none => step3Phase rows used error

/-- The phrase loop threading the `used_indices` set. -/
def processPhrases (rows : List Word) : List Nat → List String → List PhraseResult
  | _, [] => []
  | used, e :: rest =>
      let r := processPhrase rows used e
      r :: processPhrases rows r.usedAfter rest

/-- One paragraph's alignment pass: the phrase loop started with an empty
used set (line 106). -/
def alignTrace (rows : List Word) (errors : List String) : List PhraseResult :=
  processPhrases rows [] errors

/-- The adjacency side-constraint between two consecutive indices of a
partial-match run: the second index follows the first, and the first
word's next-word span id equals the second word's span id. -/
def adjOk (rows : List Word) (a b : Nat) : Prop :=
  b = a + 1 ∧ (rowGet rows a).nextWordSpan = (rowGet rows b).spans

/-! ## Theorems -/

/-- C8: the containment test returns `true` exactly when the four
coordinate inequalities hold (inner box inside container), and returns
`false` — without raising — whenever either box is absent. -/
theorem is_within_spec (b c : Box) (ob oc : Option Box) :
    (is_within (some b) (some c) = true ↔
      (b.x0 ≥ c.x0 ∧ b.x1 ≤ c.x1 ∧ b.y0 ≥ c.y0 ∧ b.y1 ≤ c.y1)) ∧
    is_within none oc = false ∧ is_within ob none = false := by
  refine ⟨?_, ?_, ?_⟩
  · simp [is_within, and_assoc]
  · cases oc <;> rfl
  · cases ob <;> rfl

/-- C7 counterexample: the empty-string input does not yield the empty
sequence — structured parsing of `""` fails, so the parser degrades to
the single-element fallback `[""]`, whose only element is the empty
string. -/
theorem parse_empty_string_cex :
    parse_error_phrases (.str "") = .list [.str ""] ∧
    ¬ parse_error_phrases (.str "") = .list [] := by
  constructor
  · rfl
  · decide

/-- C7 amended: absent (non-string, non-list) input yields the empty
sequence and list input passes through as-is; a string input whose
structured parse fails — including the empty string — yields the
single-element fallback containing the raw string, so `""` yields
`[""]`, whose element is empty. -/
theorem parse_fallback_amended :
    parse_error_phrases (.str "") = .list [.str ""] ∧
    parse_error_phrases (.scalar .other) = .list [] ∧
    (∀ n : Int, parse_error_phrases (.scalar (.int n)) = .list []) ∧
    (∀ s : String, pyLiteralEval s = none → parse_error_phrases (.str s) = .list [.str s]) ∧
    (∀ xs : List PyScalar, parse_error_phrases (.list xs) = .list xs) := by
  refine ⟨rfl, rfl, fun n => rfl, fun s h => ?_, fun xs => rfl⟩
  simp [parse_error_phrases, PyVal.str, h]

/-- Witness for the amended C7 theorem: plain free text fails structured
parsing and becomes a single phrase. -/
theorem parse_fallback_amended_w :
    parse_error_phrases (.str "hello world") = .list [.str "hello world"] :=
  parse_fallback_amended.2.2.2.1 "hello world" (by decide)

/-- The closed-boundary scan yields nothing once the position has
reached the match end. -/
theorem closedOverlapScanAux_nil_of_le (used : List Nat) (ms me : Nat) :
    ∀ (l : List String) (idx cp : Nat), me ≤ cp →
      closedOverlapScanAux used ms me l idx cp = [] := by
  intro l
  induction l with
  | nil => intro idx cp _; rfl
  | cons w rest ih =>
      intro idx cp h
      simp only [closedOverlapScanAux]
      rw [if_neg (by omega : ¬ (cp < me ∧ ms ≤ cp + w.length ∧ ¬ idx ∈ used))]
      rw [List.nil_append]
      exact ih (idx + 1) (cp + w.length + 1) (by omega)

/-- The code's direct-match scan computes exactly the closed-boundary
overlap selection: the break never discards an eligible word, and the
two-branch membership test simplifies to the closed-boundary condition. -/
theorem directScanAux_eq_closed (used : List Nat) (ms me : Nat) :
    ∀ (l : List String) (idx cp : Nat),
      directScanAux used ms me l idx cp = closedOverlapScanAux used ms me l idx cp := by
  intro l
  induction l with
  | nil => intro idx cp; rfl
  | cons w rest ih =>
      intro idx cp
      simp only [directScanAux, closedOverlapScanAux]
      have hinc : (((ms ≤ cp ∧ cp < me) ∨ (cp < me ∧ ms ≤ cp + w.length)) ∧ ¬ idx ∈ used) ↔
          (cp < me ∧ ms ≤ cp + w.length ∧ ¬ idx ∈ used) := by
        by_cases hu : idx ∈ used
        · simp [hu]
        · simp [hu]; omega
      rw [if_congr hinc rfl rfl]
      by_cases hbr : me < cp + w.length + 1
      · rw [if_pos hbr, closedOverlapScanAux_nil_of_le used ms me rest (idx + 1)
            (cp + w.length + 1) (by omega), List.append_nil]
      · rw [if_neg hbr, ih]

/-- C3 counterexample: for the phrase `" cd"` (leading space) over the
window `["ab", "cd"]`, the leftmost match interval is `[2, 5)`; word 0
occupies the character span `[0, 2)`, which does not overlap `[2, 5)`,
yet the code's scan includes it: the scan is not the strict-overlap
selection the claim states. -/
theorem direct_scan_overlap_cex :
    findSub (joinChars ["ab", "cd"]) (" cd".data) = some 2 ∧
    directScan ["ab", "cd"] [] 2 5 = [0, 1] ∧
    specOverlapScan ["ab", "cd"] [] 2 5 = [1] := by
  decide

/-- C3 amended: the exact-match selection equals the character-span
overlap selection with a closed boundary at the match start — a
not-yet-used word is selected iff its start offset is below the match
end and its end offset is at least the match start (so a word that
merely touches the match start is also included). -/
theorem direct_scan_eq_closed (contents : List String) (used : List Nat) (ms me : Nat) :
    directScan contents used ms me = closedOverlapScan contents used ms me :=
  directScanAux_eq_closed used ms me contents 0 0

/-- The fold initial value is a lower bound of `foldl Nat.max`. -/
theorem foldl_max_init_le : ∀ (l : List Nat) (a : Nat), a ≤ l.foldl Nat.max a := by
  intro l
  induction l with
  | nil => intro a; exact Nat.le_refl a
  | cons x t ih =>
      intro a
      exact Nat.le_trans (Nat.le_max_left a x) (ih (Nat.max a x))

/-- Every member of the list is bounded by `foldl Nat.max`. -/
theorem foldl_max_le_of_mem : ∀ (l : List Nat) (a x : Nat), x ∈ l → x ≤ l.foldl Nat.max a := by
  intro l
  induction l with
  | nil => intro a x hx; cases hx
  | cons y t ih =>
      intro a x hx
      rcases List.mem_cons.mp hx with h | h
      · subst h
        exact Nat.le_trans (Nat.le_max_right a x) (foldl_max_init_le t (Nat.max a x))
      · exact ih (Nat.max a y) x h

/-- `find?` decomposition: the found element splits the list, and the
predicate fails on everything before it. -/
theorem find?_decomp {α : Type} (p : α → Bool) :
    ∀ (l : List α) (c : α), l.find? p = some c →
      ∃ pre post, l = pre ++ c :: post ∧ ∀ m ∈ pre, p m = false := by
  intro l
  induction l with
  | nil => intro c h; cases h
  | cons a t ih =>
      intro c h
      by_cases hp : p a = true
      · rw [List.find?_cons_of_pos _ hp] at h
        obtain rfl : a = c := Option.some.inj h
        exact ⟨[], t, rfl, by intro m hm; cases hm⟩
      · rw [List.find?_cons_of_neg _ (by simpa using hp)] at h
        obtain ⟨pre, post, heq, hpre⟩ := ih c h
        refine ⟨a :: pre, post, by rw [heq, List.cons_append], ?_⟩
        intro m hm
        rcases List.mem_cons.mp hm with h1 | h1
        · subst h1; simpa using hp
        · exact hpre m h1

/-- C6: the winning candidate of `selectMatch` is a collected candidate;
it is a full match whenever any full match exists; and when no full
match exists it has maximum stripped length and is the earliest
candidate of that length. -/
theorem select_match_spec (all : List Candidate) (c : Candidate)
    (h : selectMatch all = some c) :
    c ∈ all ∧
    ((∃ m ∈ all, m.is_full_match = true) → c.is_full_match = true) ∧
    ((∀ m ∈ all, m.is_full_match = false) →
      (∀ m ∈ all, m.length ≤ c.length) ∧
      ∃ pre post, all = pre ++ c :: post ∧ ∀ m ∈ pre, m.length < c.length) := by
  unfold selectMatch at h
  rcases hf : all.filter (fun m => m.is_full_match) with _ | ⟨f, fs⟩
  · rw [hf] at h
    cases all with
    | nil => cases h
    | cons a t =>
        have hnofull : ∀ m ∈ a :: t, ¬ m.is_full_match = true := by
          intro m hm
          have := List.filter_eq_nil_iff.mp hf m hm
          simpa using this
        have hfind : (a :: t).find? (fun m =>
            m.length == ((a :: t).map (fun m => m.length)).foldl Nat.max 0) = some c := h
        have hcmem : c ∈ a :: t := List.mem_of_find?_eq_some hfind
        have hclen : c.length = ((a :: t).map (fun m => m.length)).foldl Nat.max 0 := by
          have := List.find?_some hfind
          simpa using this
        refine ⟨hcmem, ?_, ?_⟩
        · rintro ⟨m, hm, hfull⟩
          exact absurd hfull (hnofull m hm)
        · intro _
          constructor
          · intro m hm
            rw [hclen]
            exact foldl_max_le_of_mem _ 0 m.length (List.mem_map_of_mem _ hm)
          · obtain ⟨pre, post, heq, hpre⟩ := find?_decomp _ _ c hfind
            refine ⟨pre, post, heq, ?_⟩
            intro m hm
            have hne : ¬ m.length = ((a :: t).map (fun m => m.length)).foldl Nat.max 0 := by
              have := hpre m hm
              simpa using this
            have hle : m.length ≤ ((a :: t).map (fun m => m.length)).foldl Nat.max 0 := by
              refine foldl_max_le_of_mem _ 0 m.length (List.mem_map_of_mem _ ?_)
              rw [heq]
              exact List.mem_append_left _ hm
            rw [hclen]
            omega
  · rw [hf] at h
    obtain rfl : c = f := (Option.some.inj h).symm
    have hcf : c ∈ all.filter (fun m => m.is_full_match) := by
      rw [hf]; exact List.mem_cons_self _ _
    have hmem := List.mem_filter.mp hcf
    refine ⟨hmem.1, fun _ => by simpa using hmem.2, ?_⟩
    intro hnone
    have h1 : c.is_full_match = true := by simpa using hmem.2
    have h2 : c.is_full_match = false := hnone c hmem.1
    rw [h1] at h2
    cases h2

/-- Witness for C6: with two non-full candidates of lengths 1 and 2, the
winner bounds the first candidate's length. -/
theorem select_match_spec_w :
    (⟨[0], ['x'], false, 1⟩ : Candidate).length ≤
      (⟨[1], ['y', 'z'], false, 2⟩ : Candidate).length :=
  ((select_match_spec [⟨[0], ['x'], false, 1⟩, ⟨[1], ['y', 'z'], false, 2⟩]
      ⟨[1], ['y', 'z'], false, 2⟩ (by decide)).2.2 (by decide)).1
    ⟨[0], ['x'], false, 1⟩ (by decide)

/-- C9: when the single winning candidate of the partial-matching pass
shares an index with the used set, the phrase yields nothing at all — no
second-best candidate is tried, no highlight is emitted, and the used
set is unchanged. -/
theorem step3_reject_used (rows : List Word) (used : List Nat) (error : String)
    (c : Candidate)
    (h1 : selectMatch (allMatches rows used error) = some c)
    (h2 : ∃ idx ∈ c.sequence, idx ∈ used) :
    step3Phase rows used error = ⟨used, [], [], true⟩ := by
  have hany : (c.sequence.any fun idx => decide (idx ∈ used)) = true := by
    rw [List.any_eq_true]
    obtain ⟨idx, hmem, hused⟩ := h2
    exact ⟨idx, hmem, by simpa using hused⟩
  simp [step3Phase, h1, hany]

/-- Witness for C9: the winner `[0, 1]` for phrase `"abcd"` overlaps the
used index 1, so the phrase is dropped and the used set stays `[1]`. -/
theorem step3_reject_used_w :
    step3Phase [⟨"ab", ⟨0, 0, 1, 1⟩, 1, 7⟩, ⟨"cd", ⟨2, 0, 3, 1⟩, 7, 9⟩] [1] "abcd" =
      ⟨[1], [], [], true⟩ :=
  step3_reject_used _ _ _ ⟨[0, 1], ['a', 'b', 'c', 'd'], true, 4⟩ (by decide) (by decide)

/-- Helper: an empty phrase makes the direct-match interval empty, so
the scan selects nothing. -/
theorem directScan_empty_interval (contents : List String) (used : List Nat) :
    directScan contents used 0 0 = [] := by
  cases contents with
  | nil => rfl
  | cons w rest =>
      simp [directScan, directScanAux]

/-- C2 amended: whenever the phrase occurs as a literal substring of the
window string and the direct-match selection (excluding already-used
indices) is non-empty, the phrase's result comes from the exact-match
step and the partial-matching step is not entered; the claimed indices
are exactly the direct-match selection. -/
theorem exact_precedence_amended (rows : List Word) (used : List Nat) (error : String)
    (ms : Nat)
    (h1 : findSub (joinChars (rows.map (fun w => w.content))) error.data = some ms)
    (h2 : ¬ directScan (rows.map (fun w => w.content)) used ms (ms + error.length) = []) :
    (processPhrase rows used error).viaStep3 = false ∧
    (processPhrase rows used error).matched =
      directScan (rows.map (fun w => w.content)) used ms (ms + error.length) := by
  have herr : ¬ error = "" := by
    intro he
    subst he
    have hms : ms = 0 := by
      have : findSub (joinChars (rows.map (fun w => w.content))) [] = some 0 := by
        cases hj : joinChars (rows.map (fun w => w.content)) with
        | nil => rfl
        | cons a t => simp [findSub, findSubAux]
      rw [this] at h1
      exact (Option.some.inj h1).symm
    subst hms
    exact h2 (directScan_empty_interval _ used)
  unfold processPhrase
  rw [if_neg herr, h1]
  simp [h2]

/-- Witness for the amended C2 theorem: phrase `"a"` over window `["a"]`
is claimed by the exact-match step. -/
theorem exact_precedence_amended_w :
    (processPhrase [⟨"a", ⟨0, 0, 1, 1⟩, 0, 0⟩] [] "a").viaStep3 = false ∧
    (processPhrase [⟨"a", ⟨0, 0, 1, 1⟩, 0, 0⟩] [] "a").matched =
      directScan ["a"] [] 0 (0 + "a".length) :=
  exact_precedence_amended _ _ _ 0 (by decide) (by decide)

/-- C2 counterexample: phrase `"a"` is a literal substring of the window
string `"a b a"`, yet after the earlier phrase `"a b"` consumed indices
0 and 1, the used-excluded direct selection for `"a"` is empty and the
code falls through to the partial-matching step, which claims word 2 —
so the result for a substring phrase is not always produced by Step 2. -/
theorem exact_precedence_cex :
    (findSub
        (joinChars
          (([⟨"a", ⟨0, 0, 1, 1⟩, 0, 0⟩, ⟨"b", ⟨0, 0, 1, 1⟩, 0, 0⟩,
             ⟨"a", ⟨0, 0, 1, 1⟩, 0, 0⟩] : List Word).map (fun w => w.content)))
        ("a".data)).isSome = true ∧
    (alignTrace
        [⟨"a", ⟨0, 0, 1, 1⟩, 0, 0⟩, ⟨"b", ⟨0, 0, 1, 1⟩, 0, 0⟩,
         ⟨"a", ⟨0, 0, 1, 1⟩, 0, 0⟩] ["a b", "a"]).map (fun r => r.viaStep3) =
      [false, true] ∧
    (alignTrace
        [⟨"a", ⟨0, 0, 1, 1⟩, 0, 0⟩, ⟨"b", ⟨0, 0, 1, 1⟩, 0, 0⟩,
         ⟨"a", ⟨0, 0, 1, 1⟩, 0, 0⟩] ["a b", "a"]).map (fun r => r.matched) =
      [[0, 1], [2]] := by
  decide

/-- The run-extension loop preserves the adjacency chain: starting from
a run ending at `j - 1`, every pair of consecutive indices of the
resulting run satisfies the span-adjacency constraint, and the run still
ends just before the final scan position. -/
theorem extendRun_chain (rows : List Word) (cleanError : List Char) :
    ∀ (fuel : Nat) (seq : List Nat) (built : List Char) (j : Nat),
      1 ≤ j → seq.getLast? = some (j - 1) → List.Chain' (adjOk rows) seq →
      List.Chain' (adjOk rows) (extendRun rows cleanError fuel seq built j).1 ∧
      (extendRun rows cleanError fuel seq built j).1.getLast? =
        some ((extendRun rows cleanError fuel seq built j).2 - 1) ∧
      1 ≤ (extendRun rows cleanError fuel seq built j).2 := by
  intro fuel
  induction fuel with
  | zero =>
      intro seq built j hj hlast hchain
      exact ⟨hchain, by simpa using hlast, hj⟩
  | succ fuel ih =>
      intro seq built j hj hlast hchain
      simp only [extendRun]
      by_cases hg : j < rows.length ∧ built.isPrefixOf cleanError
      · rw [if_pos hg]
        by_cases hadj : ¬ (rowGet rows (j - 1)).nextWordSpan = (rowGet rows j).spans
        · rw [if_pos hadj]
          exact ⟨hchain, by simpa using hlast, hj⟩
        · rw [if_neg hadj]
          by_cases hpre : (built ++ stripSp (rowGet rows j).content.data).isPrefixOf cleanError
          · rw [if_pos hpre]
            refine ih (seq ++ [j]) _ (j + 1) (by omega) ?_ ?_
            · simp
            · refine List.Chain'.append hchain (List.chain'_singleton j) ?_
              intro x hx y hy
              have hx1 : j - 1 = x := by
                rw [hlast] at hx
                simpa using hx
              have hy1 : j = y := by simpa using hy
              subst hx1
              subst hy1
              unfold adjOk
              exact ⟨by omega, not_not.mp hadj⟩
          · rw [if_neg hpre]
            exact ⟨hchain, by simpa using hlast, hj⟩
      · rw [if_neg hg]
        exact ⟨hchain, by simpa using hlast, hj⟩

/-- Every candidate recorded by the start-index scan has a span-adjacent
contiguous index run. -/
theorem scanCandidates_chain (rows : List Word) (used : List Nat) (cleanError : List Char) :
    ∀ (fuel i : Nat) (c : Candidate), c ∈ scanCandidates rows used cleanError fuel i →
      List.Chain' (adjOk rows) c.sequence := by
  intro fuel
  induction fuel with
  | zero => intro i c h; cases h
  | succ fuel ih =>
      intro i c h
      simp only [scanCandidates] at h
      by_cases hi : i < rows.length
      · rw [if_pos hi] at h
        by_cases hu : i ∈ used
        · rw [if_pos hu] at h
          exact ih (i + 1) c h
        · rw [if_neg hu] at h
          set sj := extendRun rows cleanError rows.length [i]
            (stripSp (rowGet rows i).content.data) (i + 1) with hsj
          by_cases hrec : (stripSp ((sj.1.map (fun x => (rowGet rows x).content.data)).flatten)).isPrefixOf cleanError ∧
              ¬ stripSp ((sj.1.map (fun x => (rowGet rows x).content.data)).flatten) = []
          · rw [if_pos hrec] at h
            rcases List.mem_cons.mp h with h1 | h1
            · subst h1
              have := extendRun_chain rows cleanError rows.length [i]
                (stripSp (rowGet rows i).content.data) (i + 1) (by omega)
                (by simp) (List.chain'_singleton i)
              exact this.1
            · exact ih sj.2 c h1
          · rw [if_neg hrec] at h
            exact ih (i + 1) c h
      · rw [if_neg hi] at h
        cases h

/-- Candidates from every suffix attempt satisfy the adjacency chain. -/
theorem suffixAttempts_chain (rows : List Word) (used : List Nat) :
    ∀ (tokens : List (List Char)) (c : Candidate), c ∈ suffixAttempts rows used tokens →
      List.Chain' (adjOk rows) c.sequence := by
  intro tokens
  induction tokens with
  | nil => intro c h; cases h
  | cons t rest ih =>
      intro c h
      rcases List.mem_append.mp h with h1 | h1
      · exact scanCandidates_chain rows used _ _ _ c h1
      · exact ih c h1

/-- C5: during partial alignment a run is only ever extended across the
span-adjacency constraint — every candidate's index sequence is a
contiguous run in which each word's next-word span id equals the
following word's span id; no candidate concatenates two consecutive
words violating this. -/
theorem step3_adjacency (rows : List Word) (used : List Nat) (error : String)
    (c : Candidate) (h : c ∈ allMatches rows used error) :
    List.Chain' (adjOk rows) c.sequence :=
  suffixAttempts_chain rows used (pyTokens error.data) c h

/-- Witness for C5: phrase `"abcd"` over the adjacent window
`["ab", "cd"]` produces the candidate run `[0, 1]`, which is chained. -/
theorem step3_adjacency_w :
    List.Chain' (adjOk [⟨"ab", ⟨0, 0, 1, 1⟩, 1, 7⟩, ⟨"cd", ⟨2, 0, 3, 1⟩, 7, 9⟩]) [0, 1] :=
  step3_adjacency _ [] "abcd" ⟨[0, 1], ['a', 'b', 'c', 'd'], true, 4⟩ (by decide)

/-- The direct-match scan never selects an index already in `used`. -/
theorem directScanAux_not_used (used : List Nat) (ms me : Nat) :
    ∀ (l : List String) (idx cp x : Nat),
      x ∈ directScanAux used ms me l idx cp → ¬ x ∈ used := by
  intro l
  induction l with
  | nil => intro idx cp x hx; cases hx
  | cons w rest ih =>
      intro idx cp x hx
      simp only [directScanAux] at hx
      have hinc : ∀ hmem : x ∈ (if ((ms ≤ cp ∧ cp < me) ∨ (cp < me ∧ ms ≤ cp + w.length)) ∧
          ¬ idx ∈ used then [idx] else []), ¬ x ∈ used := by
        intro hmem
        by_cases hc : ((ms ≤ cp ∧ cp < me) ∨ (cp < me ∧ ms ≤ cp + w.length)) ∧ ¬ idx ∈ used
        · rw [if_pos hc] at hmem
          obtain rfl : x = idx := by simpa using hmem
          exact hc.2
        · rw [if_neg hc] at hmem
          cases hmem
      by_cases hbr : me < cp + w.length + 1
      · rw [if_pos hbr] at hx
        exact hinc hx
      · rw [if_neg hbr] at hx
        rcases List.mem_append.mp hx with h1 | h1
        · exact hinc h1
        · exact ih (idx + 1) (cp + w.length + 1) x h1

/-- The partial-matching section never claims a used index: the winner
is accepted only when disjoint from `used`. -/
theorem step3Phase_matched_not_used (rows : List Word) (used : List Nat) (error : String) :
    ∀ x ∈ (step3Phase rows used error).matched, ¬ x ∈ used := by
  cases hsel : selectMatch (allMatches rows used error) with
  | none => simp [step3Phase, hsel]
  | some c =>
      by_cases hany : (c.sequence.any fun idx => decide (idx ∈ used)) = true
      · simp [step3Phase, hsel, hany]
      · simp only [step3Phase, hsel, if_neg hany]
        intro x hx hused
        refine hany ?_
        rw [List.any_eq_true]
        exact ⟨x, hx, by simpa using hused⟩

/-- The partial-matching section extends the used set by exactly the
claimed indices. -/
theorem step3Phase_used_eq (rows : List Word) (used : List Nat) (error : String) :
    (step3Phase rows used error).usedAfter = used ++ (step3Phase rows used error).matched := by
  cases hsel : selectMatch (allMatches rows used error) with
  | none => simp [step3Phase, hsel]
  | some c =>
      by_cases hany : (c.sequence.any fun idx => decide (idx ∈ used)) = true
      · simp [step3Phase, hsel, hany]
      · simp [step3Phase, hsel, hany]

/-- One phrase iteration never claims a used index. -/
theorem processPhrase_matched_not_used (rows : List Word) (used : List Nat) (error : String) :
    ∀ x ∈ (processPhrase rows used error).matched, ¬ x ∈ used := by
  by_cases he : error = ""
  · simp [processPhrase, he]
  · cases hms : findSub (joinChars (rows.map (fun w => w.content))) error.data with
    | none =>
        simp only [processPhrase, if_neg he, hms]
        exact step3Phase_matched_not_used rows used error
    | some ms =>
        by_cases hnil : directScan (rows.map (fun w => w.content)) used ms (ms + error.length) = []
        · simp only [processPhrase, if_neg he, hms, hnil, if_pos]
          exact step3Phase_matched_not_used rows used error
        · simp only [processPhrase, if_neg he, hms, if_neg hnil]
          intro x hx
          exact directScanAux_not_used used ms (ms + error.length) _ 0 0 x hx

/-- One phrase iteration extends the used set by exactly its claimed
indices (in particular the used set never shrinks). -/
theorem processPhrase_used_eq (rows : List Word) (used : List Nat) (error : String) :
    (processPhrase rows used error).usedAfter = used ++ (processPhrase rows used error).matched := by
  by_cases he : error = ""
  · simp [processPhrase, he]
  · cases hms : findSub (joinChars (rows.map (fun w => w.content))) error.data with
    | none =>
        simp only [processPhrase, if_neg he, hms]
        exact step3Phase_used_eq rows used error
    | some ms =>
        by_cases hnil : directScan (rows.map (fun w => w.content)) used ms (ms + error.length) = []
        · simp only [processPhrase, if_neg he, hms, hnil, if_pos]
          exact step3Phase_used_eq rows used error
        · simp only [processPhrase, if_neg he, hms, if_neg hnil]

/-- Along the phrase loop, the per-phrase matched index sets are
pairwise disjoint and all disjoint from the incoming used set. -/
theorem processPhrases_sets (rows : List Word) :
    ∀ (errors : List String) (used : List Nat),
      List.Pairwise (fun s t => ∀ x ∈ s, ¬ x ∈ t)
        ((processPhrases rows used errors).map (fun r => r.matched)) ∧
      ∀ s ∈ (processPhrases rows used errors).map (fun r => r.matched),
        ∀ x ∈ s, ¬ x ∈ used := by
  intro errors
  induction errors with
  | nil =>
      intro used
      constructor
      · simp [processPhrases]
      · intro s hs
        simp [processPhrases] at hs
  | cons e rest ih =>
      intro used
      simp only [processPhrases, List.map_cons]
      have hafter := processPhrase_used_eq rows used e
      constructor
      · refine List.Pairwise.cons ?_ (ih (processPhrase rows used e).usedAfter).1
        intro t ht x hx hxt
        have hnot := (ih (processPhrase rows used e).usedAfter).2 t ht x hxt
        refine hnot ?_
        rw [hafter]
        exact List.mem_append_right used hx
      · intro s hs x hx
        rcases List.mem_cons.mp hs with h1 | h1
        · subst h1
          exact processPhrase_matched_not_used rows used e x hx
        · intro hxu
          refine (ih (processPhrase rows used e).usedAfter).2 s h1 x hx ?_
          rw [hafter]
          exact List.mem_append_left _ hxu

/-- C1 amended: within one paragraph's alignment pass of the
`Annotation.py` aligner, the matched word-index sets of distinct phrases
are pairwise disjoint, and the used set only ever grows from one phrase
to the next.  (The claim fails for `process_word_matches` of
`pdf_error_annotator.py`, which tracks no used set — see the
counterexample.) -/
theorem align_no_double_use (rows : List Word) (errors : List String) :
    List.Pairwise (fun s t => ∀ x ∈ s, ¬ x ∈ t)
      ((alignTrace rows errors).map (fun r => r.matched)) ∧
    ∀ (used : List Nat) (e : String) (x : Nat), x ∈ used →
      x ∈ (processPhrase rows used e).usedAfter :=
  ⟨(processPhrases_sets rows errors []).1, fun used e x hx => by
    rw [processPhrase_used_eq]
    exact List.mem_append_left _ hx⟩

/-- Witness for the amended C1 theorem: an index already used stays in
the used set across a phrase. -/
theorem align_no_double_use_w :
    (0 : Nat) ∈ (processPhrase ([] : List Word) [0] "q").usedAfter :=
  (align_no_double_use [] []).2 [0] "q" 0 (by decide)

/-- C1 counterexample: in `process_word_matches` of
`pdf_error_annotator.py` — which tracks no used-indices set — the two
distinct phrases `"a b"` and `"a"` over the window `["a", "b"]` both
claim word index 0, so the matched word-index sets of distinct phrases
are not pairwise disjoint there. -/
theorem pwm_double_use_cex :
    (process_word_matches [⟨"a", ⟨0, 0, 1, 1⟩, 0, 0⟩, ⟨"b", ⟨2, 0, 3, 1⟩, 0, 0⟩]
        [.str "a b", .str "a"] ⟨0, 0, 10, 10⟩ 2).map (fun a => a.matchedSets) =
      some [[0, 1], [0]] ∧
    (0 : Nat) ∈ ([0, 1] : List Nat) ∧ (0 : Nat) ∈ ([0] : List Nat) := by
  decide

/-- A successful substring search returns a position within the text. -/
theorem findSubAux_le (pat : List Char) :
    ∀ (s : List Char) (i r : Nat), findSubAux pat s i = some r → r ≤ i + s.length := by
  intro s
  induction s with
  | nil =>
      intro i r h
      simp only [findSubAux] at h
      by_cases hp : pat.isPrefixOf ([] : List Char) = true
      · rw [if_pos hp] at h
        obtain rfl : i = r := Option.some.inj h
        simp
      · rw [if_neg hp] at h
        cases h
  | cons c t ih =>
      intro i r h
      simp only [findSubAux] at h
      by_cases hp : pat.isPrefixOf (c :: t) = true
      · rw [if_pos hp] at h
        obtain rfl : i = r := Option.some.inj h
        simp
      · rw [if_neg hp] at h
        have := ih (i + 1) r h
        simp only [List.length_cons]
        omega

/-- When the match start lies inside the window text, the
`process_word_matches` scan selects at least one word. -/
theorem pwmScanAux_ne_nil (ms me : Nat) :
    ∀ (l : List String) (idx cp : Nat), ¬ l = [] → cp ≤ ms →
      ms ≤ cp + (joinChars l).length → ms ≤ me →
      ¬ pwmScanAux ms me l idx cp = [] := by
  intro l
  induction l with
  | nil => intro idx cp h; exact absurd rfl h
  | cons w rest ih =>
      intro idx cp _ hcp hlen hme
      by_cases hw : ms ≤ cp + w.length
      · have hif : (if cp ≤ me ∧ ms ≤ cp + w.length then [idx] else []) = [idx] :=
          if_pos ⟨Nat.le_trans hcp hme, hw⟩
        simp only [pwmScanAux, hif]
        simp
      · cases rest with
        | nil =>
            exfalso
            refine hw ?_
            have hj : joinChars [w] = w.data := rfl
            rw [hj] at hlen
            have hwl : w.length = w.data.length := rfl
            omega
        | cons w2 r2 =>
            have hj : joinChars (w :: w2 :: r2) = w.data ++ ' ' :: joinChars (w2 :: r2) := rfl
            rw [hj] at hlen
            have hwl : w.length = w.data.length := rfl
            have hlen2 : ms ≤ (cp + w.length + 1) + (joinChars (w2 :: r2)).length := by
              simp only [List.length_append, List.length_cons] at hlen
              omega
            have hrec := ih (idx + 1) (cp + w.length + 1) (by simp) (by omega) hlen2 hme
            simp only [pwmScanAux]
            intro hcontra
            exact hrec (List.append_eq_nil.mp hcontra).2

/-- Every index the `process_word_matches` scan selects is in range. -/
theorem pwmScanAux_lt (ms me : Nat) :
    ∀ (l : List String) (idx cp x : Nat), x ∈ pwmScanAux ms me l idx cp →
      x < idx + l.length := by
  intro l
  induction l with
  | nil => intro idx cp x hx; cases hx
  | cons w rest ih =>
      intro idx cp x hx
      simp only [pwmScanAux] at hx
      rcases List.mem_append.mp hx with h1 | h1
      · by_cases hc : cp ≤ me ∧ ms ≤ cp + w.length
        · rw [if_pos hc] at h1
          obtain rfl : x = idx := by simpa using h1
          simp
        · rw [if_neg hc] at h1
          cases h1
      · have := ih (idx + 1) (cp + w.length + 1) x h1
        simp only [List.length_cons]
        omega

/-- `.loc` lookup succeeds on in-range indices and preserves the count. -/
theorem lookupRows_spec (rows : List Word) :
    ∀ (idxs : List Nat), (∀ i ∈ idxs, i < rows.length) →
      ∃ ws : List Word, lookupRows rows idxs = some ws ∧ ws.length = idxs.length := by
  intro idxs
  induction idxs with
  | nil => intro _; exact ⟨[], rfl, rfl⟩
  | cons i t ih =>
      intro h
      have hi : i < rows.length := h i (List.mem_cons_self i t)
      obtain ⟨ws, hws, hlen⟩ := ih (fun j hj => h j (List.mem_cons_of_mem i hj))
      refine ⟨rows.get ⟨i, hi⟩ :: ws, ?_, by simp [hlen]⟩
      simp [lookupRows, hws, List.getElem?_eq_getElem hi]

/-- Insertion grows the sorted list by one element. -/
theorem insertByY0_length (b : Box) :
    ∀ l : List Box, (insertByY0 b l).length = l.length + 1 := by
  intro l
  induction l with
  | nil => rfl
  | cons c rest ih =>
      simp only [insertByY0]
      by_cases h : b.y0 ≤ c.y0
      · rw [if_pos h]
        simp
      · rw [if_neg h]
        simp [ih]

/-- Sorting by `y0` preserves the number of boxes. -/
theorem sortByY0_length : ∀ l : List Box, (sortByY0 l).length = l.length := by
  intro l
  induction l with
  | nil => rfl
  | cons b rest ih =>
      have : sortByY0 (b :: rest) = insertByY0 b (sortByY0 rest) := rfl
      rw [this, insertByY0_length, ih]
      simp

/-- The checked `highlight_matched_words` succeeds whenever it is given
a non-empty list of in-range indices. -/
theorem highlight_matched_words_isSome (rows : List Word) (idxs : List Nat) (tol : ℚ)
    (h1 : ¬ idxs = []) (h2 : ∀ i ∈ idxs, i < rows.length) :
    (highlight_matched_words rows idxs tol).isSome = true := by
  obtain ⟨ws, hws, hlen⟩ := lookupRows_spec rows idxs h2
  simp only [highlight_matched_words, hws]
  cases hs : sortByY0 (ws.map (fun w => w.bbox)) with
  | nil =>
      exfalso
      have hlen2 := sortByY0_length (ws.map (fun w => w.bbox))
      rw [hs] at hlen2
      simp only [List.length_nil, List.length_map] at hlen2
      rw [hlen] at hlen2
      exact h1 (List.length_eq_zero.mp hlen2.symm)
  | cons b rest => rfl

/-- The phrase loop of `process_word_matches` never hits a checked
indexing failure. -/
theorem pwmGo_isSome (rows : List Word) (tol : ℚ) :
    ∀ (errs : List PyScalar) (acc : PwmAcc), (pwmGo rows tol errs acc).isSome = true := by
  intro errs
  induction errs with
  | nil => intro acc; rfl
  | cons e rest ih =>
      intro acc
      cases e with
      | int n => exact ih acc
      | other => exact ih acc
      | str s =>
          by_cases hs : s = ""
          · simp only [pwmGo, if_pos hs]
            exact ih acc
          · simp only [pwmGo, if_neg hs]
            cases hms : findSub (joinChars (rows.map (fun w => w.content))) s.data with
            | none => exact ih acc
            | some ms =>
                by_cases hnil : pwmScan (rows.map (fun w => w.content)) ms (ms + s.length) = []
                · simp only [hnil, if_pos]
                  exact ih _
                · simp only [if_neg hnil]
                  have hrange : ∀ i ∈ pwmScan (rows.map (fun w => w.content)) ms (ms + s.length),
                      i < rows.length := by
                    intro i hi
                    have hi2 : i ∈ pwmScanAux ms (ms + s.length)
                        (rows.map (fun w => w.content)) 0 0 := hi
                    have := pwmScanAux_lt ms (ms + s.length)
                      (rows.map (fun w => w.content)) 0 0 i hi2
                    simpa using this
                  have hsome := highlight_matched_words_isSome rows _ tol hnil hrange
                  cases hh : highlight_matched_words rows
                      (pwmScan (rows.map (fun w => w.content)) ms (ms + s.length)) tol with
                  | none =>
                      rw [hh] at hsome
                      cases hsome
                  | some rects =>
                      simp only [hh]
                      exact ih _

/-- C10: `highlight_matched_words` is only invoked by
`process_word_matches` on a non-empty, in-range index list, so under the
checked semantics — where indexing an empty list or a missing label
yields `none` — the whole routine always returns a result. -/
theorem pwm_highlight_safe (rows : List Word) (errs : List PyScalar) (pb : Box) (tol : ℚ) :
    (process_word_matches rows errs pb tol).isSome = true := by
  unfold process_word_matches
  cases h : pwmGo rows tol errs ⟨[], [], false⟩ with
  | none =>
      have := pwmGo_isSome rows tol errs ⟨[], [], false⟩
      rw [h] at this
      cases this
  | some acc =>
      by_cases hm : acc.matchesFound = true
      · simp [hm]
      · simp [hm]

/-- Over a non-empty window, every phrase either leaves the accumulator
unchanged or appends a matched set: if the matched sets do not grow, the
accumulator (its rectangles and its matches-found flag included) is
exactly as it started.  The key point is that a found substring always
selects at least one word, so the flag is never set without a set being
recorded. -/
theorem pwmGo_sets_inv (rows : List Word) (tol : ℚ) (hrows : ¬ rows = []) :
    ∀ (errs : List PyScalar) (acc acc2 : PwmAcc),
      pwmGo rows tol errs acc = some acc2 →
      ∃ t, acc2.matchedSets = acc.matchedSets ++ t ∧ (t = [] → acc2 = acc) := by
  intro errs
  induction errs with
  | nil =>
      intro acc acc2 h
      obtain rfl : acc = acc2 := Option.some.inj h
      exact ⟨[], by simp, fun _ => rfl⟩
  | cons e rest ih =>
      intro acc acc2 h
      cases e with
      | int n => exact ih acc acc2 h
      | other => exact ih acc acc2 h
      | str s =>
          by_cases hs : s = ""
          · simp only [pwmGo, if_pos hs] at h
            exact ih acc acc2 h
          · simp only [pwmGo, if_neg hs] at h
            cases hms : findSub (joinChars (rows.map (fun w => w.content))) s.data with
            | none =>
                rw [hms] at h
                exact ih acc acc2 h
            | some ms =>
                simp only [hms] at h
                have hnil : ¬ pwmScan (rows.map (fun w => w.content)) ms (ms + s.length) = [] := by
                  refine pwmScanAux_ne_nil ms (ms + s.length) (rows.map (fun w => w.content))
                    0 0 ?_ (Nat.zero_le ms) ?_ (Nat.le_add_right ms s.length)
                  · simpa using hrows
                  · have hms2 : findSubAux s.data
                        (joinChars (rows.map (fun w => w.content))) 0 = some ms := hms
                    have := findSubAux_le s.data
                      (joinChars (rows.map (fun w => w.content))) 0 ms hms2
                    omega
                rw [if_neg hnil] at h
                cases hh : highlight_matched_words rows
                    (pwmScan (rows.map (fun w => w.content)) ms (ms + s.length)) tol with
                | none =>
                    rw [hh] at h
                    cases h
                | some rects =>
                    rw [hh] at h
                    obtain ⟨t2, ht2, _⟩ := ih _ acc2 h
                    refine ⟨[pwmScan (rows.map (fun w => w.content)) ms (ms + s.length)] ++ t2,
                      ?_, ?_⟩
                    · rw [ht2]
                      simp
                    · intro habs
                      simp at habs

/-- C4: a paragraph whose error-phrase field parses to a non-empty
phrase list and whose run records no accepted phrase match — including
when the word window inside the buffered paragraph box is empty — emits
exactly one annotation, equal to the converted-and-buffered paragraph
bounding box. -/
theorem fallback_completeness (pageWords : List RawWord) (pb : Box)
    (pageHeight buffer tol : ℚ) (ep : PyVal) (es : List PyScalar) (r : ParaResult)
    (h1 : parse_error_phrases ep = .list es) (h2 : ¬ es = [])
    (h3 : process_paragraph_core pageWords pb pageHeight buffer tol ep = some r)
    (h4 : r.matchedSets = []) :
    r.annots = [convertBuffer pb pageHeight buffer] := by
  have ht : ¬ pyTruthy (.list es) = false := by
    simp [pyTruthy, h2]
  simp only [process_paragraph_core, h1, if_neg ht, pyIter] at h3
  by_cases hw : (selectWindow pageWords (convertBuffer pb pageHeight buffer)).isEmpty = true
  · rw [if_pos hw] at h3
    obtain rfl : (⟨[convertBuffer pb pageHeight buffer], []⟩ : ParaResult) = r :=
      Option.some.inj h3
    rfl
  · rw [if_neg hw] at h3
    cases hpwm : process_word_matches (selectWindow pageWords
        (convertBuffer pb pageHeight buffer)) es (convertBuffer pb pageHeight buffer) tol with
    | none =>
        rw [hpwm] at h3
        cases h3
    | some acc =>
        rw [hpwm] at h3
        obtain rfl : (⟨acc.annots, acc.matchedSets⟩ : ParaResult) = r := Option.some.inj h3
        have hrows : ¬ selectWindow pageWords (convertBuffer pb pageHeight buffer) = [] := by
          intro hnil
          rw [hnil] at hw
          exact hw rfl
        unfold process_word_matches at hpwm
        cases hgo : pwmGo (selectWindow pageWords (convertBuffer pb pageHeight buffer)) tol
            es ⟨[], [], false⟩ with
        | none =>
            rw [hgo] at hpwm
            cases hpwm
        | some acc0 =>
            simp only [hgo] at hpwm
            obtain ⟨t, hts, himp⟩ := pwmGo_sets_inv _ tol hrows es _ _ hgo
            simp only [List.nil_append] at hts
            by_cases hm : acc0.matchesFound = true
            · exfalso
              rw [if_pos hm] at hpwm
              obtain rfl : acc0 = acc := Option.some.inj hpwm
              have ht0 : t = [] := by
                rw [← hts]
                exact h4
              have := himp ht0
              rw [this] at hm
              cases hm
            · rw [if_neg hm] at hpwm
              obtain rfl : (⟨acc0.annots ++ [convertBuffer pb pageHeight buffer],
                  acc0.matchedSets, false⟩ : PwmAcc) = acc := Option.some.inj hpwm
              have ht0 : t = [] := by
                rw [← hts]
                exact h4
              have hacc0 := himp ht0
              rw [hacc0]
              rfl

/-- Witness for C4: an empty page-word list (empty window) with one
parsed phrase falls back to the single buffered-paragraph annotation. -/
theorem fallback_completeness_w :
    (⟨[convertBuffer ⟨10, 20, 30, 40⟩ 100 5], []⟩ : ParaResult).annots =
      [convertBuffer ⟨10, 20, 30, 40⟩ 100 5] :=
  fallback_completeness [] ⟨10, 20, 30, 40⟩ 100 5 2 (.str "['x']") [.str "x"]
    ⟨[convertBuffer ⟨10, 20, 30, 40⟩ 100 5], []⟩ (by decide) (by decide) rfl rfl

end Annotator
